import Mathlib

/-!
Verification of the PII-safe merge/round-trip pipeline of the resume
optimizer: the PII sanitizer (`src/analyzers/pii_sanitizer.py`), the resume
merger (`src/utils/resume_merger.py`) and the suggestion ledger held by the
optimizer agent (`src/agents/resume_optimizer_agent.py`).

Records are Python dicts holding JSON-like data.  We embed them as
association lists of string keys (`Obj`) over a JSON value type, with the
Python dict operations: lookup of the (unique) key, `d[k] = v` updating in
place when the key exists and appending otherwise, `k in d`, and `del d[k]`.
Fallible Python code (subscripting a missing key raises `KeyError`, iterating
a non-list where a list is expected raises a `TypeError`) is embedded as
`Except String`.
-/

namespace ResumeOpt

/-- JSON-like values stored in a resume record. -/
inductive Json where
  | null : Json
  | bool (b : Bool) : Json
  | num (n : Int) : Json
  | str (s : String) : Json
  | arr (xs : List Json) : Json
  | obj (kvs : List (String × Json)) : Json

/-- A Python dict with string keys: an insertion-ordered association list. -/
abbrev Obj := List (String × Json)

/-- `d.get(k)`: the value at the first occurrence of key `k`. -/
def getKey : Obj → String → Option Json
  | [], _ => none
  | (k₁, v) :: rest, k => if k₁ = k then some v else getKey rest k

/-- `k in d`. -/
def hasKey (d : Obj) (k : String) : Bool :=
  (getKey d k).isSome

/-- `d[k] = v`: replace the value at `k` in place when the key is present,
append `(k, v)` at the end otherwise (Python dict assignment preserves
insertion order for existing keys and appends new keys). -/
def setKey (d : Obj) (k : String) (v : Json) : Obj :=
  if hasKey d k then d.map (fun p => if p.1 = k then (k, v) else p)
  else d ++ [(k, v)]

/-- `del d[k]`. -/
def delKey (d : Obj) (k : String) : Obj :=
  d.filter (fun p => p.1 != k)

/-! ## PIISanitizer (`src/analyzers/pii_sanitizer.py`) -/

/-- The redaction placeholder literal. -/
def redacted : String := "[REDACTED]"

/-- The location placeholder, distinct from the identity placeholder. -/
def locationPlaceholder : String := "[LOCATION]"

/-- `f'Company_{chr(65+i)}'`: the position-derived company pseudonym. -/
def companyPseudonym (i : Nat) : String :=
  "Company_" ++ (Char.ofNat (65 + i)).toString

/-- `f'University_{chr(65+i)}'`: the position-derived institution pseudonym. -/
def universityPseudonym (i : Nat) : String :=
  "University_" ++ (Char.ofNat (65 + i)).toString

/-- The canonical value `sanitize_resume` assigns to `personal_info`:
name plus a contact object with exactly the keys email, phone, location,
linkedin, every leaf being the redaction placeholder. -/
def sanitizedPersonalInfo : Json :=
  .obj [("name", .str redacted),
        ("contact", .obj [("email", .str redacted),
                          ("phone", .str redacted),
                          ("location", .str redacted),
                          ("linkedin", .str redacted)])]

/-- One iteration of the experience loop of `sanitize_resume`:
`exp['company'] = f'Company_{chr(65+i)}'` and, when a location key is
present, `exp['location'] = '[LOCATION]'`.  An entry that is not a dict
cannot be subscript-assigned and raises. -/
def sanitizeExperienceEntry (i : Nat) (j : Json) : Except String Json :=
  match j with
  | .obj e =>
      let e := setKey e "company" (.str (companyPseudonym i))
      let e := if hasKey e "location"
               then setKey e "location" (.str locationPlaceholder) else e
      .ok (.obj e)
  | _ => .error "TypeError: experience entry is not an object"

/-- One iteration of the education loop of `sanitize_resume`:
`edu['institution'] = f'University_{chr(65+i)}'`. -/
def sanitizeEducationEntry (i : Nat) (j : Json) : Except String Json :=
  match j with
  | .obj e => .ok (.obj (setKey e "institution" (.str (universityPseudonym i))))
  | _ => .error "TypeError: education entry is not an object"

/-- `for i, x in enumerate(xs)` applying a fallible per-entry update,
starting at index `n`. -/
def mapIdxM (f : Nat → Json → Except String Json) : Nat → List Json → Except String (List Json)
  | _, [] => .ok []
  | n, x :: xs => do
      let y ← f n x
      let ys ← mapIdxM f (n + 1) xs
      .ok (y :: ys)

/-- The `personal_info` block of `sanitize_resume`:
`if 'personal_info' in sanitized: sanitized['personal_info'] = {...}`. -/
def sanitizePersonalInfoStep (d : Obj) : Obj :=
  if hasKey d "personal_info" then setKey d "personal_info" sanitizedPersonalInfo else d

/-- The experience block of `sanitize_resume`: anonymize every entry of the
`experience` list in place.  A present `experience` value that is not a
list is modeled as a type error. -/
def sanitizeExperienceStep (d : Obj) : Except String Obj :=
  match getKey d "experience" with
  | some (.arr xs) =>
      (mapIdxM sanitizeExperienceEntry 0 xs).map
        (fun xs₁ => setKey d "experience" (.arr xs₁))
  | some _ => .error "TypeError: experience is not a list of objects"
  | none => .ok d

/-- The education block of `sanitize_resume`. -/
def sanitizeEducationStep (d : Obj) : Except String Obj :=
  match getKey d "education" with
  | some (.arr xs) =>
      (mapIdxM sanitizeEducationEntry 0 xs).map
        (fun xs₁ => setKey d "education" (.arr xs₁))
  | some _ => .error "TypeError: education is not a list of objects"
  | none => .ok d

/-- `PIISanitizer.sanitize_resume`.  Works on a deep copy of its input
(value semantics here), replaces `personal_info` wholesale with the
canonical redacted block, anonymizes company/location in every experience
entry and institution in every education entry. -/
def sanitize_resume (resume_data : Obj) : Except String Obj := do
  let s := sanitizePersonalInfoStep resume_data
  let s ← sanitizeExperienceStep s
  let s ← sanitizeEducationStep s
  .ok s

/-! ## ResumeMerger (`src/utils/resume_merger.py`) -/

/-- The `personal_info` block of `ResumeMerger.merge`:
`if 'personal_info' in original_resume: merged['personal_info'] =
 copy.deepcopy(original_resume['personal_info'])`. -/
def restorePersonalInfo (original merged : Obj) : Obj :=
  match getKey original "personal_info" with
  | some pi => setKey merged "personal_info" pi
  | none => merged

/-- One iteration of the experience loop of `merge`:
`updated_exp['company'] = orig_exp['company']` (raising `KeyError` when the
original entry has no company) and
`if 'location' in orig_exp: updated_exp['location'] = orig_exp['location']`. -/
def mergeExperienceEntry (o m : Json) : Except String Json :=
  match o, m with
  | .obj oe, .obj me =>
      match getKey oe "company" with
      | none => .error "KeyError: company"
      | some c =>
          match getKey oe "location" with
          | some lv => .ok (.obj (setKey (setKey me "company" c) "location" lv))
          | none => .ok (.obj (setKey me "company" c))
  | _, _ => .error "TypeError: experience entry is not an object"

/-- One iteration of the education loop of `merge`:
`updated_edu['institution'] = orig_edu['institution']` (raising `KeyError`
when the original entry has no institution). -/
def mergeEducationEntry (o m : Json) : Except String Json :=
  match o, m with
  | .obj oe, .obj me =>
      match getKey oe "institution" with
      | none => .error "KeyError: institution"
      | some inst => .ok (.obj (setKey me "institution" inst))
  | _, _ => .error "TypeError: education entry is not an object"

/-- `for i in range(min(len(os), len(ms)))` applying a fallible per-index
update to `ms[i]`; entries of `ms` beyond the length of `os` are kept
unchanged. -/
def mergeZip (f : Json → Json → Except String Json) : List Json → List Json → Except String (List Json)
  | _, [] => .ok []
  | [], ms => .ok ms
  | o :: os, m :: ms => do
      let m₁ ← f o m
      let ms₁ ← mergeZip f os ms
      .ok (m₁ :: ms₁)

/-- The experience block of `merge`: runs only when both records carry an
`experience` key, and walks the overlapping index range. -/
def restoreExperience (original merged : Obj) : Except String Obj :=
  match getKey original "experience", getKey merged "experience" with
  | some (.arr os), some (.arr ms) =>
      (mergeZip mergeExperienceEntry os ms).map
        (fun ms₁ => setKey merged "experience" (.arr ms₁))
  | some _, some _ => .error "TypeError: experience is not a list"
  | _, _ => .ok merged

/-- The education block of `merge`. -/
def restoreEducation (original merged : Obj) : Except String Obj :=
  match getKey original "education", getKey merged "education" with
  | some (.arr os), some (.arr ms) =>
      (mergeZip mergeEducationEntry os ms).map
        (fun ms₁ => setKey merged "education" (.arr ms₁))
  | some _, some _ => .error "TypeError: education is not a list"
  | _, _ => .ok merged

/-- The final block of `merge`:
`if '_metadata' in merged and '_metadata' not in original_resume:
 del merged['_metadata']`. -/
def stripMetadata (original merged : Obj) : Obj :=
  if hasKey merged "_metadata" && !hasKey original "_metadata"
  then delKey merged "_metadata" else merged

/-- `ResumeMerger.merge`: starts from a deep copy of the updated sanitized
record, restores `personal_info` wholesale from the original, restores
company/location per experience index and institution per education index
over the overlapping range, and drops a transient `_metadata` key the
original does not carry. -/
def merge (original_resume sanitized_updated : Obj) : Except String Obj := do
  let merged := restorePersonalInfo original_resume sanitized_updated
  let merged ← restoreExperience original_resume merged
  let merged ← restoreEducation original_resume merged
  .ok (stripMetadata original_resume merged)

/-! ## Shape and cleanliness predicates -/

/-- Computable string-prefix test over the character lists. -/
def strHasPrefix (p s : String) : Bool :=
  p.data.isPrefixOf s.data

/-- A value that syntactically looks like one of the sanitizer's redaction
outputs: the identity placeholder, the location placeholder, or a
position-derived company/university pseudonym. -/
def looksRedacted (j : Json) : Bool :=
  match j with
  | .str s =>
      s == redacted || s == locationPlaceholder
        || strHasPrefix "Company_" s || strHasPrefix "University_" s
  | _ => false

/-- The name and every contact subfield of a `personal_info` value are free
of redaction placeholders and pseudonyms. -/
def cleanPersonalInfo (j : Json) : Bool :=
  match j with
  | .obj pi =>
      (match getKey pi "name" with
       | some v => !looksRedacted v
       | none => true)
        && (match getKey pi "contact" with
            | some (.obj c) => c.all (fun p => !looksRedacted p.2)
            | _ => true)
  | _ => true

/-- The value is a JSON object. -/
def isObjEntry (j : Json) : Bool :=
  match j with
  | .obj _ => true
  | _ => false

/-- The value is a list all of whose entries are objects. -/
def entriesAreObjects (j : Json) : Bool :=
  match j with
  | .arr xs => xs.all isObjEntry
  | _ => false

/-- The value is an object carrying the key `k`. -/
def entryHas (k : String) (j : Json) : Bool :=
  match j with
  | .obj e => hasKey e k
  | _ => false

/-- When the key `k` is present, its value is a list of objects. -/
def keyEntriesAreObjects (d : Obj) (k : String) : Bool :=
  match getKey d k with
  | some j => entriesAreObjects j
  | none => true

/-- When present, `experience` and `education` are lists of objects — the
shape the data model prescribes; which keys each object carries is left
completely open. -/
def listShaped (d : Obj) : Bool :=
  keyEntriesAreObjects d "experience" && keyEntriesAreObjects d "education"

/-- When the key `k` holds a list, every object entry carries `sub`. -/
def entriesHaveKey (d : Obj) (k sub : String) : Bool :=
  match getKey d k with
  | some (.arr xs) => xs.all (entryHas sub)
  | _ => true

/-- Every experience entry carries a `company` key and every education entry
an `institution` key — the keys `merge` reads unguarded from the original
record. -/
def originalKeysPresent (d : Obj) : Bool :=
  entriesHaveKey d "experience" "company" && entriesHaveKey d "education" "institution"

/-! ## Suggestion ledger (`src/agents/resume_optimizer_agent.py`) -/

/-- A validated suggestion as produced by `_validate_suggestions`:
all required fields present.  The Python dict key `section` is spelled
`sectionPath` here (`section` is a Lean keyword); the optional `modified`
key is a Bool that starts out false. -/
structure Suggestion where
  id : Int
  category : String
  type : String
  description : String
  action : String
  reason : String
  sectionPath : String
  value : String
  priority : String
  selected : Bool
  modified : Bool
deriving DecidableEq

/-- The agent's suggestion state.  Python's `selected_suggestions` is a list
of references to the very dict objects stored in `all_suggestions`; since
`all_suggestions` is never reordered or shrunk, we model each reference as
the index of the suggestion in `all_suggestions` (`selectedRefs`), and
reading the selected list dereferences through the current store, exactly
as reading a shared mutable dict does in Python. -/
structure Ledger where
  all_suggestions : List Suggestion
  selectedRefs : List Nat
deriving DecidableEq

/-- The loop body of `select_suggestions`, walking the store from index `n`:
every suggestion whose id is in `selected_ids` gets `selected = True` and
its reference appended to the selected list. -/
def selectLoop (selected_ids : List Int) : List Suggestion → Nat → List Suggestion × List Nat
  | [], _ => ([], [])
  | s :: rest, n =>
      if s.id ∈ selected_ids then
        ({ s with selected := true } :: (selectLoop selected_ids rest (n + 1)).1,
         n :: (selectLoop selected_ids rest (n + 1)).2)
      else
        (s :: (selectLoop selected_ids rest (n + 1)).1,
         (selectLoop selected_ids rest (n + 1)).2)

/-- `ResumeOptimizerAgent.select_suggestions`. -/
def select_suggestions (st : Ledger) (selected_ids : List Int) : Ledger :=
  { all_suggestions := (selectLoop selected_ids st.all_suggestions 0).1,
    selectedRefs := st.selectedRefs ++ (selectLoop selected_ids st.all_suggestions 0).2 }

/-- The loop body of `modify_suggestion`: every suggestion whose id matches
gets its value replaced and `modified = True`; the loop has no break and
never fails. -/
def modifyLoop (suggestion_id : Int) (new_value : String) : List Suggestion → List Suggestion
  | [] => []
  | s :: rest =>
      (if s.id = suggestion_id then { s with value := new_value, modified := true } else s)
        :: modifyLoop suggestion_id new_value rest

/-- `ResumeOptimizerAgent.modify_suggestion`. -/
def modify_suggestion (st : Ledger) (suggestion_id : Int) (new_value : String) : Ledger :=
  { st with all_suggestions := modifyLoop suggestion_id new_value st.all_suggestions }

/-- `ResumeOptimizerAgent.get_selected_suggestions`: the selected list read
through the shared store. -/
def get_selected_suggestions (st : Ledger) : List Suggestion :=
  st.selectedRefs.filterMap (fun i => st.all_suggestions.get? i)

/-! ## Concrete inputs used by counterexamples and witnesses -/

/-- A validated suggestion with id `n` and defaulted fields. -/
def sampleSuggestion (n : Int) : Suggestion :=
  { id := n, category := "Other", type := "add_text", description := "d",
    action := "a", reason := "r", sectionPath := "skills", value := "v",
    priority := "medium", selected := false, modified := false }

/-- A ledger holding one suggestion (id 1), nothing selected yet. -/
def oneSuggestionLedger : Ledger :=
  { all_suggestions := [sampleSuggestion 1], selectedRefs := [] }

/-- A ledger holding a batch of five suggestions ordered by id 1..5. -/
def fiveSuggestionLedger : Ledger :=
  { all_suggestions := [sampleSuggestion 1, sampleSuggestion 2, sampleSuggestion 3,
                        sampleSuggestion 4, sampleSuggestion 5],
    selectedRefs := [] }

/-- A concrete original resume record with real identity data, an extra
contact subfield, one experience entry and one education entry. -/
def sampleResume : Obj :=
  [("personal_info", .obj [("name", .str "Jane"),
                           ("contact", .obj [("email", .str "jane@mail"),
                                             ("extra", .str "pager")])]),
   ("profile", .str "profile text"),
   ("experience", .arr [.obj [("company", .str "Acme"),
                              ("location", .str "NYC"),
                              ("title", .str "Eng")]]),
   ("education", .arr [.obj [("institution", .str "MIT"),
                             ("degree", .str "BS")]])]

/-- The sanitized form of `sampleResume` (checked by `rfl` below). -/
def sampleSanitized : Obj :=
  [("personal_info", sanitizedPersonalInfo),
   ("profile", .str "profile text"),
   ("experience", .arr [.obj [("company", .str "Company_A"),
                              ("location", .str "[LOCATION]"),
                              ("title", .str "Eng")]]),
   ("education", .arr [.obj [("institution", .str "University_A"),
                             ("degree", .str "BS")]])]

/-- An edited anonymized record derived from `sampleSanitized`: the profile
and a title were rewritten and a transient `_metadata` key was added; the
identity-bearing fields still hold the sanitizer's placeholders. -/
def sampleEdited : Obj :=
  [("personal_info", sanitizedPersonalInfo),
   ("profile", .str "edited profile"),
   ("experience", .arr [.obj [("company", .str "Company_A"),
                              ("location", .str "[LOCATION]"),
                              ("title", .str "Senior Eng")]]),
   ("education", .arr [.obj [("institution", .str "University_A"),
                             ("degree", .str "BS")]]),
   ("_metadata", .str "tmp")]

/-- The merge of `sampleResume` with `sampleEdited` (checked by `rfl`
below): edits kept, identity restored, metadata dropped. -/
def sampleMerged : Obj :=
  [("personal_info", .obj [("name", .str "Jane"),
                           ("contact", .obj [("email", .str "jane@mail"),
                                             ("extra", .str "pager")])]),
   ("profile", .str "edited profile"),
   ("experience", .arr [.obj [("company", .str "Acme"),
                              ("location", .str "NYC"),
                              ("title", .str "Senior Eng")]]),
   ("education", .arr [.obj [("institution", .str "MIT"),
                             ("degree", .str "BS")]])]

/-! ## Dictionary lemmas -/

theorem getKey_cons (p : String × Json) (rest : Obj) (k : String) :
    getKey (p :: rest) k = if p.1 = k then some p.2 else getKey rest k := by
  cases p; rfl

theorem hasKey_cons (p : String × Json) (rest : Obj) (k : String) :
    hasKey (p :: rest) k = (p.1 == k || hasKey rest k) := by
  by_cases h : p.1 = k <;> simp [hasKey, getKey_cons, h]

theorem getKey_append (d₁ d₂ : Obj) (k : String) :
    getKey (d₁ ++ d₂) k = (getKey d₁ k).or (getKey d₂ k) := by
  induction d₁ with
  | nil => rfl
  | cons p rest ih =>
      by_cases h : p.1 = k <;> simp [getKey_cons, h, ih]

theorem getKey_eq_none_of_not_hasKey {d : Obj} {k : String}
    (h : hasKey d k = false) : getKey d k = none := by
  simpa [hasKey] using h

theorem getKey_mapSet_self {d : Obj} {k : String} (v : Json)
    (h : hasKey d k = true) :
    getKey (d.map (fun p => if p.1 = k then (k, v) else p)) k = some v := by
  induction d with
  | nil => simp [hasKey, getKey] at h
  | cons p rest ih =>
      by_cases hp : p.1 = k
      · simp [getKey_cons, hp]
      · have h₁ : hasKey rest k = true := by
          simpa [hasKey_cons, hp] using h
        simp [getKey_cons, hp, ih h₁]

theorem getKey_mapSet_ne (d : Obj) {k k₁ : String} (v : Json) (h : k₁ ≠ k) :
    getKey (d.map (fun p => if p.1 = k then (k, v) else p)) k₁ = getKey d k₁ := by
  induction d with
  | nil => rfl
  | cons p rest ih =>
      by_cases hp : p.1 = k
      · simp [getKey_cons, hp, Ne.symm h, ih]
      · simp [getKey_cons, hp, ih]

theorem getKey_setKey_self (d : Obj) (k : String) (v : Json) :
    getKey (setKey d k v) k = some v := by
  unfold setKey
  by_cases h : hasKey d k
  · simpa [h] using getKey_mapSet_self v h
  · have h₀ : getKey d k = none :=
      getKey_eq_none_of_not_hasKey (Bool.not_eq_true _ ▸ eq_false_of_ne_true h)
    simp [h, getKey_append, h₀, getKey_cons]

theorem getKey_setKey_ne (d : Obj) {k k₁ : String} (v : Json) (h : k₁ ≠ k) :
    getKey (setKey d k v) k₁ = getKey d k₁ := by
  unfold setKey
  by_cases hk : hasKey d k
  · simpa [hk] using getKey_mapSet_ne d v h
  · simp [hk, getKey_append, getKey_cons, getKey, Ne.symm h, Option.or_none]

theorem hasKey_setKey_self (d : Obj) (k : String) (v : Json) :
    hasKey (setKey d k v) k = true := by
  simp [hasKey, getKey_setKey_self]

theorem hasKey_setKey_ne (d : Obj) {k k₁ : String} (v : Json) (h : k₁ ≠ k) :
    hasKey (setKey d k v) k₁ = hasKey d k₁ := by
  simp [hasKey, getKey_setKey_ne d v h]

theorem getKey_delKey_ne (d : Obj) {k k₁ : String} (h : k₁ ≠ k) :
    getKey (delKey d k) k₁ = getKey d k₁ := by
  induction d with
  | nil => rfl
  | cons p rest ih =>
      by_cases hp : p.1 = k
      · have hb : (p.1 != k) = false := by simp [hp]
        have hne : ¬ p.1 = k₁ := by rw [hp]; exact Ne.symm h
        simp only [delKey, List.filter_cons, hb, if_false, getKey_cons, hne]
        simpa [delKey] using ih
      · have hb : (p.1 != k) = true := by simp [hp]
        simp only [delKey, List.filter_cons, hb, if_true, getKey_cons]
        have ih₁ : getKey (delKey rest k) k₁ = getKey rest k₁ := ih
        simp only [delKey] at ih₁
        rw [ih₁]

/-- Every pair of `d` whose key is `k` carries the value `v`.  After a
Python dict assignment `d[k] = v` this holds, and an assignment for which
it already holds (with the key present) leaves the dict unchanged. -/
def allVal (d : Obj) (k : String) (v : Json) : Prop :=
  ∀ p ∈ d, p.1 = k → p.2 = v

theorem hasKey_of_mem {d : Obj} {p : String × Json} {k : String}
    (hm : p ∈ d) (hk : p.1 = k) : hasKey d k = true := by
  induction d with
  | nil => cases hm
  | cons q rest ih =>
      rcases List.mem_cons.mp hm with h | h
      · have : q.1 = k := by rw [← h]; exact hk
        simp [hasKey_cons, this]
      · simp [hasKey_cons, ih h]

theorem allVal_setKey_self (d : Obj) (k : String) (v : Json) :
    allVal (setKey d k v) k v := by
  intro p hp hk
  unfold setKey at hp
  by_cases h : hasKey d k
  · rw [if_pos h] at hp
    obtain ⟨q, hq, hfq⟩ := List.mem_map.mp hp
    by_cases hq₁ : q.1 = k
    · rw [if_pos hq₁] at hfq
      rw [← hfq]
    · rw [if_neg hq₁] at hfq
      exact absurd (hfq ▸ hk) hq₁
  · rw [if_neg h] at hp
    rcases List.mem_append.mp hp with hp | hp
    · exact absurd (hasKey_of_mem hp hk) (by simpa using h)
    · rw [List.mem_singleton.mp hp]

theorem allVal_setKey_ne {d : Obj} {k : String} {v : Json} (k₁ : String) (w : Json)
    (h : k ≠ k₁) (hv : allVal d k v) : allVal (setKey d k₁ w) k v := by
  intro p hp hk
  unfold setKey at hp
  by_cases h₁ : hasKey d k₁
  · rw [if_pos h₁] at hp
    obtain ⟨q, hq, hfq⟩ := List.mem_map.mp hp
    by_cases hq₁ : q.1 = k₁
    · rw [if_pos hq₁] at hfq
      rw [← hfq] at hk
      exact absurd hk (Ne.symm h)
    · rw [if_neg hq₁] at hfq
      rw [← hfq] at hk ⊢
      exact hv q hq hk
  · rw [if_neg h₁] at hp
    rcases List.mem_append.mp hp with hp | hp
    · exact hv p hp hk
    · rw [List.mem_singleton.mp hp] at hk
      exact absurd hk (Ne.symm h)

theorem allVal_delKey {d : Obj} {k : String} {v : Json} (k₁ : String)
    (hv : allVal d k v) : allVal (delKey d k₁) k v := by
  intro p hp hk
  exact hv p (List.mem_of_mem_filter hp) hk

theorem mapSet_eq_self {d : Obj} {k : String} {v : Json} (hv : allVal d k v) :
    d.map (fun p => if p.1 = k then (k, v) else p) = d := by
  induction d with
  | nil => rfl
  | cons p rest ih =>
      have hrest : allVal rest k v := fun q hq => hv q (List.mem_cons_of_mem _ hq)
      by_cases hp : p.1 = k
      · have : p.2 = v := hv p (List.mem_cons_self _ _) hp
        simp [hp, ih hrest]
        exact Prod.ext hp.symm this.symm
      · simp [hp, ih hrest]

theorem setKey_eq_self {d : Obj} {k : String} {v : Json}
    (hk : hasKey d k = true) (hv : allVal d k v) : setKey d k v = d := by
  unfold setKey
  simpa [hk] using mapSet_eq_self hv

/-! ## Ledger lemmas -/

theorem selectLoop_fst (ids : List Int) :
    ∀ (l : List Suggestion) (n : Nat),
      (selectLoop ids l n).1
        = l.map (fun s => if s.id ∈ ids then { s with selected := true } else s) := by
  intro l
  induction l with
  | nil => intro n; rfl
  | cons s rest ih =>
      intro n
      by_cases hs : s.id ∈ ids <;> simp [selectLoop, hs, ih (n + 1)]

theorem mem_selectLoop_snd (ids : List Int) :
    ∀ (l : List Suggestion) (n i : Nat),
      i ∈ (selectLoop ids l n).2 ↔
        n ≤ i ∧ ∃ s, l.get? (i - n) = some s ∧ s.id ∈ ids := by
  intro l
  induction l with
  | nil => intro n i; simp [selectLoop]
  | cons s rest ih =>
      intro n i
      by_cases hs : s.id ∈ ids
      · simp only [selectLoop, if_pos hs, List.mem_cons]
        constructor
        · rintro (rfl | hi)
          · exact ⟨le_refl _, s, by simp, hs⟩
          · obtain ⟨hn, t, hget, hid⟩ := (ih (n + 1) i).mp hi
            refine ⟨by omega, t, ?_, hid⟩
            have hin : i - n = (i - (n + 1)) + 1 := by omega
            rw [hin]
            simpa using hget
        · rintro ⟨hn, t, hget, hid⟩
          by_cases hin : i = n
          · exact Or.inl hin
          · refine Or.inr ((ih (n + 1) i).mpr ⟨by omega, t, ?_, hid⟩)
            have hsub : i - n = (i - (n + 1)) + 1 := by omega
            rw [hsub] at hget
            simpa using hget
      · simp only [selectLoop, if_neg hs]
        constructor
        · intro hi
          obtain ⟨hn, t, hget, hid⟩ := (ih (n + 1) i).mp hi
          refine ⟨by omega, t, ?_, hid⟩
          have hin : i - n = (i - (n + 1)) + 1 := by omega
          rw [hin]
          simpa using hget
        · rintro ⟨hn, t, hget, hid⟩
          by_cases hin : i = n
          · subst hin
            simp at hget
            subst hget
            exact absurd hid hs
          · refine (ih (n + 1) i).mpr ⟨by omega, t, ?_, hid⟩
            have hsub : i - n = (i - (n + 1)) + 1 := by omega
            rw [hsub] at hget
            simpa using hget

theorem pairwise_selectLoop_snd (ids : List Int) :
    ∀ (l : List Suggestion) (n : Nat),
      List.Pairwise (· < ·) (selectLoop ids l n).2 := by
  intro l
  induction l with
  | nil => intro n; simp [selectLoop]
  | cons s rest ih =>
      intro n
      by_cases hs : s.id ∈ ids
      · simp only [selectLoop, if_pos hs]
        refine List.Pairwise.cons ?_ (ih (n + 1))
        intro j hj
        have := ((mem_selectLoop_snd ids rest (n + 1) j).mp hj).1
        omega
      · simp only [selectLoop, if_neg hs]
        exact ih (n + 1)

theorem nodup_selectLoop_snd (ids : List Int) (l : List Suggestion) (n : Nat) :
    ((selectLoop ids l n).2).Nodup :=
  (pairwise_selectLoop_snd ids l n).imp (fun h => Nat.ne_of_lt h)

theorem selectLoop_congr {ids ids₂ : List Int}
    (h : ∀ x : Int, x ∈ ids ↔ x ∈ ids₂) :
    ∀ (l : List Suggestion) (n : Nat), selectLoop ids l n = selectLoop ids₂ l n := by
  intro l
  induction l with
  | nil => intro n; rfl
  | cons s rest ih =>
      intro n
      by_cases hs : s.id ∈ ids
      · simp [selectLoop, hs, (h s.id).mp hs, ih (n + 1)]
      · have hs₂ : s.id ∉ ids₂ := fun c => hs ((h s.id).mpr c)
        simp [selectLoop, hs, hs₂, ih (n + 1)]

theorem count_selectLoop_snd (ids : List Int) (l : List Suggestion) (i : Nat)
    (s : Suggestion) (h : l.get? i = some s) :
    ((selectLoop ids l 0).2).count i = if s.id ∈ ids then 1 else 0 := by
  by_cases hs : s.id ∈ ids
  · rw [if_pos hs]
    refine List.count_eq_one_of_mem (nodup_selectLoop_snd ids l 0) ?_
    exact (mem_selectLoop_snd ids l 0 i).mpr ⟨Nat.zero_le _, s, by simpa using h, hs⟩
  · rw [if_neg hs]
    rw [List.count_eq_zero]
    intro hmem
    obtain ⟨-, t, hget, hid⟩ := (mem_selectLoop_snd ids l 0 i).mp hmem
    simp only [Nat.sub_zero] at hget
    rw [h] at hget
    cases hget
    exact absurd hid hs

theorem modifyLoop_eq_map (suggestion_id : Int) (new_value : String) :
    ∀ l : List Suggestion,
      modifyLoop suggestion_id new_value l
        = l.map (fun s => if s.id = suggestion_id
                          then { s with value := new_value, modified := true } else s) := by
  intro l
  induction l with
  | nil => rfl
  | cons s rest ih => simp [modifyLoop, ih]

theorem modifyLoop_eq_self {suggestion_id : Int} {new_value : String}
    {l : List Suggestion} (h : ∀ s ∈ l, s.id ≠ suggestion_id) :
    modifyLoop suggestion_id new_value l = l := by
  induction l with
  | nil => rfl
  | cons s rest ih =>
      have hs : ¬ s.id = suggestion_id := h s (List.mem_cons_self _ _)
      simp only [modifyLoop, if_neg hs]
      rw [ih (fun t ht => h t (List.mem_cons_of_mem _ ht))]

/-! ## Merger and sanitizer lemmas -/

theorem except_bind_ok {α β : Type} {x : Except String α} {f : α → Except String β} {b : β}
    (h : (x >>= f) = .ok b) : ∃ a, x = .ok a ∧ f a = .ok b := by
  cases x with
  | error e => simp [Bind.bind, Except.bind] at h
  | ok a => exact ⟨a, rfl, by simpa [Bind.bind, Except.bind] using h⟩

theorem merge_ok_elim {r e m : Obj} (h : merge r e = .ok m) :
    ∃ d₂ d₃, restoreExperience r (restorePersonalInfo r e) = .ok d₂
      ∧ restoreEducation r d₂ = .ok d₃ ∧ m = stripMetadata r d₃ := by
  unfold merge at h
  obtain ⟨d₂, h₂, h'⟩ := except_bind_ok h
  obtain ⟨d₃, h₃, h''⟩ := except_bind_ok h'
  refine ⟨d₂, d₃, h₂, h₃, ?_⟩
  simpa using h''.symm

theorem restorePersonalInfo_getKey_pi {r d : Obj} {v : Json}
    (hpi : getKey r "personal_info" = some v) :
    getKey (restorePersonalInfo r d) "personal_info" = some v := by
  simp [restorePersonalInfo, hpi, getKey_setKey_self]

theorem restorePersonalInfo_of_none {r : Obj} (d : Obj)
    (hpi : getKey r "personal_info" = none) :
    restorePersonalInfo r d = d := by
  simp [restorePersonalInfo, hpi]

theorem restorePersonalInfo_getKey_ne (r d : Obj) {k : String}
    (hk : k ≠ "personal_info") :
    getKey (restorePersonalInfo r d) k = getKey d k := by
  unfold restorePersonalInfo
  cases hpi : getKey r "personal_info" with
  | none => rfl
  | some v => exact getKey_setKey_ne d v hk

theorem stripMetadata_getKey_ne (r d : Obj) {k : String} (hk : k ≠ "_metadata") :
    getKey (stripMetadata r d) k = getKey d k := by
  unfold stripMetadata
  split
  · exact getKey_delKey_ne d hk
  · rfl

theorem restoreExperience_getKey_ne {r d d₁ : Obj}
    (h : restoreExperience r d = .ok d₁) {k : String} (hk : k ≠ "experience") :
    getKey d₁ k = getKey d k := by
  unfold restoreExperience at h
  split at h
  · rename_i os ms _ _
    cases hz : mergeZip mergeExperienceEntry os ms with
    | error e₀ => rw [hz] at h; simp [Except.map] at h
    | ok ms₁ =>
        rw [hz] at h
        simp only [Except.map, Except.ok.injEq] at h
        rw [← h]
        exact getKey_setKey_ne d _ hk
  · simp at h
  · simp only [Except.ok.injEq] at h
    rw [← h]

theorem restoreEducation_getKey_ne {r d d₁ : Obj}
    (h : restoreEducation r d = .ok d₁) {k : String} (hk : k ≠ "education") :
    getKey d₁ k = getKey d k := by
  unfold restoreEducation at h
  split at h
  · rename_i os ms _ _
    cases hz : mergeZip mergeEducationEntry os ms with
    | error e₀ => rw [hz] at h; simp [Except.map] at h
    | ok ms₁ =>
        rw [hz] at h
        simp only [Except.map, Except.ok.injEq] at h
        rw [← h]
        exact getKey_setKey_ne d _ hk
  · simp at h
  · simp only [Except.ok.injEq] at h
    rw [← h]

theorem mergeZip_length {f : Json → Json → Except String Json} :
    ∀ (os ms : List Json) {ms₁ : List Json},
      mergeZip f os ms = .ok ms₁ → ms₁.length = ms.length := by
  intro os
  induction os with
  | nil =>
      intro ms ms₁ h
      cases ms with
      | nil => simp only [mergeZip, Except.ok.injEq] at h; rw [← h]
      | cons m ms => simp only [mergeZip, Except.ok.injEq] at h; rw [← h]
  | cons o os ih =>
      intro ms ms₁ h
      cases ms with
      | nil => simp only [mergeZip, Except.ok.injEq] at h; rw [← h]
      | cons m ms =>
          unfold mergeZip at h
          obtain ⟨m₁, hm₁, h₀⟩ := except_bind_ok h
          obtain ⟨ms₂, hms₂, h₁⟩ := except_bind_ok h₀
          simp only [Except.ok.injEq] at h₁
          rw [← h₁]
          simp [ih _ hms₂]

theorem mergeZip_get_beyond {f : Json → Json → Except String Json} :
    ∀ (os ms : List Json) {ms₁ : List Json},
      mergeZip f os ms = .ok ms₁ →
        ∀ i, os.get? i = none → ms₁.get? i = ms.get? i := by
  intro os
  induction os with
  | nil =>
      intro ms ms₁ h i _
      cases ms with
      | nil => simp only [mergeZip, Except.ok.injEq] at h; rw [← h]
      | cons m ms => simp only [mergeZip, Except.ok.injEq] at h; rw [← h]
  | cons o os ih =>
      intro ms ms₁ h i hnone
      cases ms with
      | nil => simp only [mergeZip, Except.ok.injEq] at h; rw [← h]
      | cons m ms =>
          unfold mergeZip at h
          obtain ⟨m₁, hm₁, h₀⟩ := except_bind_ok h
          obtain ⟨ms₂, hms₂, h₁⟩ := except_bind_ok h₀
          simp only [Except.ok.injEq] at h₁
          rw [← h₁]
          cases i with
          | zero => simp at hnone
          | succ j =>
              simp only [List.get?_cons_succ] at hnone ⊢
              exact ih _ hms₂ j hnone

theorem mergeZip_get_overlap {f : Json → Json → Except String Json} :
    ∀ (os ms : List Json) {ms₁ : List Json},
      mergeZip f os ms = .ok ms₁ →
        ∀ i o m, os.get? i = some o → ms.get? i = some m →
          ∃ m₁, ms₁.get? i = some m₁ ∧ f o m = .ok m₁ := by
  intro os
  induction os with
  | nil => intro ms ms₁ h i o m ho _; simp at ho
  | cons o₀ os ih =>
      intro ms ms₁ h i o m ho hm
      cases ms with
      | nil => simp at hm
      | cons m₀ ms =>
          unfold mergeZip at h
          obtain ⟨m₁, hm₁, h₀⟩ := except_bind_ok h
          obtain ⟨ms₂, hms₂, h₁⟩ := except_bind_ok h₀
          simp only [Except.ok.injEq] at h₁
          rw [← h₁]
          cases i with
          | zero =>
              simp only [List.get?_cons_zero, Option.some.injEq] at ho hm
              exact ⟨m₁, rfl, by rw [← ho, ← hm]; exact hm₁⟩
          | succ j =>
              simp only [List.get?_cons_succ] at ho hm ⊢
              exact ih _ hms₂ j o m ho hm

theorem mergeExperienceEntry_ok {o m m₁ : Json}
    (h : mergeExperienceEntry o m = .ok m₁) :
    ∃ oe me me₁, o = .obj oe ∧ m = .obj me ∧ m₁ = .obj me₁
      ∧ (∃ c, getKey oe "company" = some c ∧ getKey me₁ "company" = some c)
      ∧ ((∃ lv, getKey oe "location" = some lv ∧ getKey me₁ "location" = some lv)
          ∨ (getKey oe "location" = none
              ∧ getKey me₁ "location" = getKey me "location"))
      ∧ (∀ k, k ≠ "company" → k ≠ "location" → getKey me₁ k = getKey me k) := by
  unfold mergeExperienceEntry at h
  split at h
  · rename_i oe me
    cases hc : getKey oe "company" with
    | none => rw [hc] at h; simp at h
    | some c =>
        rw [hc] at h
        cases hl : getKey oe "location" with
        | some lv =>
            rw [hl] at h
            simp only [Except.ok.injEq] at h
            refine ⟨oe, me, _, rfl, rfl, h.symm, ⟨c, hc, ?_⟩, ?_, ?_⟩
            · rw [getKey_setKey_ne _ _ (by decide), getKey_setKey_self]
            · exact Or.inl ⟨lv, hl, getKey_setKey_self _ _ _⟩
            · intro k hk₁ hk₂
              rw [getKey_setKey_ne _ _ hk₂, getKey_setKey_ne _ _ hk₁]
        | none =>
            rw [hl] at h
            simp only [Except.ok.injEq] at h
            refine ⟨oe, me, _, rfl, rfl, h.symm, ⟨c, hc, getKey_setKey_self _ _ _⟩,
                Or.inr ⟨hl, getKey_setKey_ne _ _ (by decide)⟩, ?_⟩
            intro k hk₁ _
            rw [getKey_setKey_ne _ _ hk₁]
  · simp at h

theorem mergeEducationEntry_ok {o m m₁ : Json}
    (h : mergeEducationEntry o m = .ok m₁) :
    ∃ oe me me₁, o = .obj oe ∧ m = .obj me ∧ m₁ = .obj me₁
      ∧ (∃ inst, getKey oe "institution" = some inst
          ∧ getKey me₁ "institution" = some inst)
      ∧ (∀ k, k ≠ "institution" → getKey me₁ k = getKey me k) := by
  unfold mergeEducationEntry at h
  split at h
  · rename_i oe me
    cases hc : getKey oe "institution" with
    | none => rw [hc] at h; simp at h
    | some inst =>
        rw [hc] at h
        simp only [Except.ok.injEq] at h
        refine ⟨oe, me, _, rfl, rfl, h.symm,
            ⟨inst, hc, getKey_setKey_self _ _ _⟩, ?_⟩
        intro k hk
        rw [getKey_setKey_ne _ _ hk]
  · simp at h

theorem restoreExperience_ok_elim_left {r d d₁ : Obj} {os : List Json}
    (h : restoreExperience r d = .ok d₁)
    (hro : getKey r "experience" = some (.arr os)) :
    (getKey d "experience" = none ∧ d₁ = d)
    ∨ ∃ ms ms₁, getKey d "experience" = some (.arr ms)
        ∧ mergeZip mergeExperienceEntry os ms = .ok ms₁
        ∧ d₁ = setKey d "experience" (.arr ms₁) := by
  unfold restoreExperience at h
  rw [hro] at h
  cases hd : getKey d "experience" with
  | none =>
      rw [hd] at h
      simp only [Except.ok.injEq] at h
      exact Or.inl ⟨rfl, h.symm⟩
  | some j =>
      rw [hd] at h
      cases j with
      | arr ms =>
          replace h : Except.map (fun ms₁ => setKey d "experience" (Json.arr ms₁))
              (mergeZip mergeExperienceEntry os ms) = Except.ok d₁ := h
          cases hz : mergeZip mergeExperienceEntry os ms with
          | error e₀ => rw [hz] at h; simp [Except.map] at h
          | ok ms₁ =>
              rw [hz] at h
              simp only [Except.map, Except.ok.injEq] at h
              exact Or.inr ⟨ms, ms₁, rfl, hz, h.symm⟩
      | null => simp at h
      | bool b => simp at h
      | num n => simp at h
      | str s₀ => simp at h
      | obj kv => simp at h

theorem restoreEducation_ok_elim_left {r d d₁ : Obj} {os : List Json}
    (h : restoreEducation r d = .ok d₁)
    (hro : getKey r "education" = some (.arr os)) :
    (getKey d "education" = none ∧ d₁ = d)
    ∨ ∃ ms ms₁, getKey d "education" = some (.arr ms)
        ∧ mergeZip mergeEducationEntry os ms = .ok ms₁
        ∧ d₁ = setKey d "education" (.arr ms₁) := by
  unfold restoreEducation at h
  rw [hro] at h
  cases hd : getKey d "education" with
  | none =>
      rw [hd] at h
      simp only [Except.ok.injEq] at h
      exact Or.inl ⟨rfl, h.symm⟩
  | some j =>
      rw [hd] at h
      cases j with
      | arr ms =>
          replace h : Except.map (fun ms₁ => setKey d "education" (Json.arr ms₁))
              (mergeZip mergeEducationEntry os ms) = Except.ok d₁ := h
          cases hz : mergeZip mergeEducationEntry os ms with
          | error e₀ => rw [hz] at h; simp [Except.map] at h
          | ok ms₁ =>
              rw [hz] at h
              simp only [Except.map, Except.ok.injEq] at h
              exact Or.inr ⟨ms, ms₁, rfl, hz, h.symm⟩
      | null => simp at h
      | bool b => simp at h
      | num n => simp at h
      | str s₀ => simp at h
      | obj kv => simp at h

/-! ## Claims about the sanitizer and merger -/

/-- C2: when the original record carries a `personal_info` block, the merged
record's `personal_info` equals the original's exactly — the merger
overwrites the block wholesale from the original, for every structurally
compatible edited record. -/
theorem merge_restores_identity_block (r e m : Obj) (h : merge r e = .ok m)
    (hpi : hasKey r "personal_info" = true) :
    getKey m "personal_info" = getKey r "personal_info" := by
  obtain ⟨d₂, d₃, h₂, h₃, hm⟩ := merge_ok_elim h
  obtain ⟨v, hv⟩ : ∃ v, getKey r "personal_info" = some v :=
    Option.isSome_iff_exists.mp (by simpa [hasKey] using hpi)
  rw [hv, hm,
      stripMetadata_getKey_ne r d₃ (by decide),
      restoreEducation_getKey_ne h₃ (by decide),
      restoreExperience_getKey_ne h₂ (by decide)]
  exact restorePersonalInfo_getKey_pi hv

/-- Witness for C2 at the concrete sample records. -/
theorem merge_restores_identity_block_witness :
    getKey sampleMerged "personal_info" = getKey sampleResume "personal_info" :=
  merge_restores_identity_block sampleResume sampleEdited sampleMerged rfl rfl

/-- C5: the merger changes only the identity block, per-entry
company/location in experience, per-entry institution in education, and the
transient `_metadata` key.  Every other top-level field of the merged record
(`profile`, `skills`, `certifications`, ...) equals the edited record's
field, and inside every experience/education entry every other key
(achievements, titles, dates, ...) keeps the edited record's value. -/
theorem merge_preserves_edited_content (r e m : Obj) (h : merge r e = .ok m) :
    (∀ k, k ≠ "personal_info" → k ≠ "experience" → k ≠ "education" →
        k ≠ "_metadata" → getKey m k = getKey e k)
    ∧ (∀ os ms, getKey r "experience" = some (.arr os) →
        getKey e "experience" = some (.arr ms) →
        ∃ ms₁, getKey m "experience" = some (.arr ms₁) ∧ ms₁.length = ms.length
          ∧ ∀ i me, ms.get? i = some (.obj me) →
              ∃ me₁, ms₁.get? i = some (.obj me₁)
                ∧ ∀ k, k ≠ "company" → k ≠ "location" →
                    getKey me₁ k = getKey me k)
    ∧ (∀ os ms, getKey r "education" = some (.arr os) →
        getKey e "education" = some (.arr ms) →
        ∃ ms₁, getKey m "education" = some (.arr ms₁) ∧ ms₁.length = ms.length
          ∧ ∀ i me, ms.get? i = some (.obj me) →
              ∃ me₁, ms₁.get? i = some (.obj me₁)
                ∧ ∀ k, k ≠ "institution" → getKey me₁ k = getKey me k) := by
  obtain ⟨d₂, d₃, h₂, h₃, hm⟩ := merge_ok_elim h
  refine ⟨?_, ?_, ?_⟩
  · intro k h1 h2 h3 h4
    rw [hm, stripMetadata_getKey_ne r d₃ h4, restoreEducation_getKey_ne h₃ h3,
        restoreExperience_getKey_ne h₂ h2, restorePersonalInfo_getKey_ne r e h1]
  · intro os ms hro hme
    have hrp : getKey (restorePersonalInfo r e) "experience" = some (.arr ms) := by
      rw [restorePersonalInfo_getKey_ne r e (by decide)]; exact hme
    rcases restoreExperience_ok_elim_left h₂ hro with ⟨hnone, _⟩ | ⟨ms', ms₁, hms', hz, hd₂⟩
    · rw [hrp] at hnone; cases hnone
    · have hms : ms' = ms := by
        rw [hms'] at hrp
        simpa using hrp
      subst hms
      have hgd₂ : getKey d₂ "experience" = some (.arr ms₁) := by
        rw [hd₂]; exact getKey_setKey_self _ _ _
      have hgm : getKey m "experience" = some (.arr ms₁) := by
        rw [hm, stripMetadata_getKey_ne r d₃ (by decide),
            restoreEducation_getKey_ne h₃ (by decide)]
        exact hgd₂
      refine ⟨ms₁, hgm, mergeZip_length _ _ hz, ?_⟩
      intro i me hmei
      cases hoi : os.get? i with
      | none =>
          refine ⟨me, ?_, fun k _ _ => rfl⟩
          rw [mergeZip_get_beyond _ _ hz i hoi]
          exact hmei
      | some o =>
          obtain ⟨m₁, hm₁, hfm⟩ := mergeZip_get_overlap _ _ hz i o _ hoi hmei
          obtain ⟨oe, me', me₁, _, hme', hm₁obj, -, -, hframe⟩ :=
            mergeExperienceEntry_ok hfm
          injection hme' with hmeq
          subst hmeq
          exact ⟨me₁, by rw [hm₁, hm₁obj], hframe⟩
  · intro os ms hro hme
    have hrp : getKey (restorePersonalInfo r e) "education" = some (.arr ms) := by
      rw [restorePersonalInfo_getKey_ne r e (by decide)]; exact hme
    have hrp₂ : getKey d₂ "education" = some (.arr ms) := by
      rw [restoreExperience_getKey_ne h₂ (by decide)]; exact hrp
    rcases restoreEducation_ok_elim_left h₃ hro with ⟨hnone, _⟩ | ⟨ms', ms₁, hms', hz, hd₃⟩
    · rw [hrp₂] at hnone; cases hnone
    · have hms : ms' = ms := by
        rw [hms'] at hrp₂
        simpa using hrp₂
      subst hms
      have hgm : getKey m "education" = some (.arr ms₁) := by
        rw [hm, stripMetadata_getKey_ne r d₃ (by decide), hd₃]
        exact getKey_setKey_self _ _ _
      refine ⟨ms₁, hgm, mergeZip_length _ _ hz, ?_⟩
      intro i me hmei
      cases hoi : os.get? i with
      | none =>
          refine ⟨me, ?_, fun k _ => rfl⟩
          rw [mergeZip_get_beyond _ _ hz i hoi]
          exact hmei
      | some o =>
          obtain ⟨m₁, hm₁, hfm⟩ := mergeZip_get_overlap _ _ hz i o _ hoi hmei
          obtain ⟨oe, me', me₁, -, hme', hm₁obj, -, hframe⟩ :=
            mergeEducationEntry_ok hfm
          injection hme' with hmeq
          subst hmeq
          exact ⟨me₁, by rw [hm₁, hm₁obj], hframe⟩

/-- Witness for C5 at the concrete sample records: the edited profile value
survives the merge, and the edited experience title survives inside the
entry. -/
theorem merge_preserves_edited_content_witness :
    getKey sampleMerged "profile" = getKey sampleEdited "profile" :=
  (merge_preserves_edited_content sampleResume sampleEdited sampleMerged rfl).1
    "profile" (by decide) (by decide) (by decide) (by decide)

/-- C1: no placeholder leaks into the merged record's identity-bearing
fields.  The original record `r` is a real (un-sanitized) record: its
identity fields carry no redaction placeholder and no pseudonym (`hpic`,
`hexpc`, `heduc`).  The edited record `e` is derived from `sanitize(r)` and
structurally compatible, which we use through two structural facts that the
sanitizer guarantees and structure-preserving edits keep: `e` has a
`personal_info` key only if `r` does (`hpider`), and within the overlapping
experience range an entry of `e` carries a `location` key only where `r`'s
corresponding entry does (`hlocder`).  Conclusion: in `merge r e`, the
`personal_info` name/contact fields, and for every index below the minimum
of the two list lengths the experience `company`, any populated experience
`location`, and the education `institution`, are free of `'[REDACTED]'`,
`'[LOCATION]'` and the positional pseudonyms. -/
theorem merge_no_placeholder_leak (r e m : Obj) (h : merge r e = .ok m)
    (hpider : hasKey e "personal_info" = true → hasKey r "personal_info" = true)
    (hpic : ∀ j, getKey r "personal_info" = some j → cleanPersonalInfo j = true)
    (hexpc : ∀ os i oe, getKey r "experience" = some (.arr os) →
        os.get? i = some (.obj oe) →
        (∀ v, getKey oe "company" = some v → looksRedacted v = false)
        ∧ (∀ v, getKey oe "location" = some v → looksRedacted v = false))
    (hlocder : ∀ os ms i oe me, getKey r "experience" = some (.arr os) →
        getKey e "experience" = some (.arr ms) → os.get? i = some (.obj oe) →
        ms.get? i = some (.obj me) → hasKey me "location" = true →
        hasKey oe "location" = true)
    (heduc : ∀ os i oe, getKey r "education" = some (.arr os) →
        os.get? i = some (.obj oe) →
        ∀ v, getKey oe "institution" = some v → looksRedacted v = false) :
    (∀ j, getKey m "personal_info" = some j → cleanPersonalInfo j = true)
    ∧ (∀ os ms₁ i me₁, getKey r "experience" = some (.arr os) →
        getKey m "experience" = some (.arr ms₁) → i < os.length →
        ms₁.get? i = some (.obj me₁) →
        (∀ v, getKey me₁ "company" = some v → looksRedacted v = false)
        ∧ (∀ v, getKey me₁ "location" = some v → looksRedacted v = false))
    ∧ (∀ os ms₁ i me₁, getKey r "education" = some (.arr os) →
        getKey m "education" = some (.arr ms₁) → i < os.length →
        ms₁.get? i = some (.obj me₁) →
        ∀ v, getKey me₁ "institution" = some v → looksRedacted v = false) := by
  obtain ⟨d₂, d₃, h₂, h₃, hm⟩ := merge_ok_elim h
  refine ⟨?_, ?_, ?_⟩
  · intro j hj
    cases hr : hasKey r "personal_info" with
    | true =>
        obtain ⟨v, hv⟩ : ∃ v, getKey r "personal_info" = some v :=
          Option.isSome_iff_exists.mp (by simpa [hasKey] using hr)
        have hchain : getKey m "personal_info" = some v := by
          rw [hm, stripMetadata_getKey_ne r d₃ (by decide),
              restoreEducation_getKey_ne h₃ (by decide),
              restoreExperience_getKey_ne h₂ (by decide)]
          exact restorePersonalInfo_getKey_pi hv
        rw [hchain] at hj
        injection hj with hj
        subst hj
        exact hpic v hv
    | false =>
        have hre : getKey r "personal_info" = none := by
          cases hx : getKey r "personal_info" with
          | none => rfl
          | some u => rw [hasKey, hx] at hr; cases hr
        have hee : getKey e "personal_info" = none := by
          cases hx : getKey e "personal_info" with
          | none => rfl
          | some u =>
              have hek : hasKey e "personal_info" = true := by simp [hasKey, hx]
              rw [hpider hek] at hr
              cases hr
        have hnone : getKey m "personal_info" = none := by
          rw [hm, stripMetadata_getKey_ne r d₃ (by decide),
              restoreEducation_getKey_ne h₃ (by decide),
              restoreExperience_getKey_ne h₂ (by decide),
              restorePersonalInfo_of_none e hre]
          exact hee
        rw [hnone] at hj
        cases hj
  · intro os ms₁ i me₁ hro hgm hilen hms₁i
    rcases restoreExperience_ok_elim_left h₂ hro with ⟨hnone, hd⟩ | ⟨ms, ms₁', hms, hz, hd₂⟩
    · have : getKey m "experience" = none := by
        rw [hm, stripMetadata_getKey_ne r d₃ (by decide),
            restoreEducation_getKey_ne h₃ (by decide), hd]
        exact hnone
      rw [this] at hgm
      cases hgm
    · have hgm' : getKey m "experience" = some (.arr ms₁') := by
        rw [hm, stripMetadata_getKey_ne r d₃ (by decide),
            restoreEducation_getKey_ne h₃ (by decide), hd₂]
        exact getKey_setKey_self _ _ _
      have hms₁eq : ms₁' = ms₁ := by
        rw [hgm'] at hgm
        simpa using hgm
      subst hms₁eq
      have hge : getKey e "experience" = some (.arr ms) := by
        rw [← restorePersonalInfo_getKey_ne r e (by decide)]
        exact hms
      obtain ⟨o, hoi⟩ : ∃ o, os.get? i = some o := by
        cases hx : os.get? i with
        | none => exact absurd (List.get?_eq_none.mp hx) (by omega)
        | some o => exact ⟨o, rfl⟩
      have hlen : i < ms.length := by
        have h₁ := List.get?_eq_some.mp hms₁i
        obtain ⟨hlt, -⟩ := h₁
        rw [mergeZip_length _ _ hz] at hlt
        exact hlt
      obtain ⟨mi, hmi⟩ : ∃ mi, ms.get? i = some mi := by
        cases hx : ms.get? i with
        | none => exact absurd (List.get?_eq_none.mp hx) (by omega)
        | some mi => exact ⟨mi, rfl⟩
      obtain ⟨m₁, hm₁, hfm⟩ := mergeZip_get_overlap _ _ hz i o mi hoi hmi
      have hm₁eq : m₁ = .obj me₁ := by
        rw [hm₁] at hms₁i
        simpa using hms₁i
      subst hm₁eq
      obtain ⟨oe, mei, me₁', hoe, hmei, hobj, hcomp, hloc, -⟩ :=
        mergeExperienceEntry_ok hfm
      injection hobj with hobj
      subst hobj
      subst hoe
      subst hmei
      constructor
      · intro v hv
        obtain ⟨c, hcoe, hcme⟩ := hcomp
        rw [hv] at hcme
        injection hcme with hcme
        subst hcme
        exact (hexpc os i oe hro hoi).1 v hcoe
      · intro v hv
        rcases hloc with ⟨lv, hlvoe, hlvme⟩ | ⟨hlvnone, hleq⟩
        · rw [hv] at hlvme
          injection hlvme with hlvme
          subst hlvme
          exact (hexpc os i oe hro hoi).2 v hlvoe
        · rw [hleq] at hv
          have hhk : hasKey mei "location" = true := by simp [hasKey, hv]
          have := hlocder os ms i oe mei hro hge hoi hmi hhk
          rw [hasKey, hlvnone] at this
          cases this
  · intro os ms₁ i me₁ hro hgm hilen hms₁i
    have hrp₂ : ∀ v, getKey (restorePersonalInfo r e) "education" = v →
        getKey d₂ "education" = v := by
      intro v hv
      rw [restoreExperience_getKey_ne h₂ (by decide)]
      exact hv
    rcases restoreEducation_ok_elim_left h₃ hro with ⟨hnone, hd⟩ | ⟨ms, ms₁', hms, hz, hd₃⟩
    · have : getKey m "education" = none := by
        rw [hm, stripMetadata_getKey_ne r d₃ (by decide), hd]
        exact hnone
      rw [this] at hgm
      cases hgm
    · have hgm' : getKey m "education" = some (.arr ms₁') := by
        rw [hm, stripMetadata_getKey_ne r d₃ (by decide), hd₃]
        exact getKey_setKey_self _ _ _
      have hms₁eq : ms₁' = ms₁ := by
        rw [hgm'] at hgm
        simpa using hgm
      subst hms₁eq
      obtain ⟨o, hoi⟩ : ∃ o, os.get? i = some o := by
        cases hx : os.get? i with
        | none => exact absurd (List.get?_eq_none.mp hx) (by omega)
        | some o => exact ⟨o, rfl⟩
      have hlen : i < ms.length := by
        obtain ⟨hlt, -⟩ := List.get?_eq_some.mp hms₁i
        rw [mergeZip_length _ _ hz] at hlt
        exact hlt
      obtain ⟨mi, hmi⟩ : ∃ mi, ms.get? i = some mi := by
        cases hx : ms.get? i with
        | none => exact absurd (List.get?_eq_none.mp hx) (by omega)
        | some mi => exact ⟨mi, rfl⟩
      obtain ⟨m₁, hm₁, hfm⟩ := mergeZip_get_overlap _ _ hz i o mi hoi hmi
      have hm₁eq : m₁ = .obj me₁ := by
        rw [hm₁] at hms₁i
        simpa using hms₁i
      subst hm₁eq
      obtain ⟨oe, mei, me₁', hoe, hmei, hobj, hinst, -⟩ :=
        mergeEducationEntry_ok hfm
      injection hobj with hobj
      subst hobj
      subst hoe
      subst hmei
      intro v hv
      obtain ⟨c, hcoe, hcme⟩ := hinst
      rw [hv] at hcme
      injection hcme with hcme
      subst hcme
      exact heduc os i oe hro hoi v hcoe

/-- Witness for C1 at the concrete sample records: applying the theorem to
`sampleResume` and `sampleEdited` shows the restored personal_info block and
the restored company of the merged record are placeholder-free. -/
theorem merge_no_placeholder_leak_witness :
    cleanPersonalInfo (.obj [("name", .str "Jane"),
        ("contact", .obj [("email", .str "jane@mail"),
                          ("extra", .str "pager")])]) = true
      ∧ looksRedacted (.str "Acme") = false :=
  have h := (merge_no_placeholder_leak sampleResume sampleEdited sampleMerged rfl
      (fun _ => rfl)
      (by intro j hj; cases hj; rfl)
      (by intro os i oe hos hoe
          cases hos
          cases i with
          | zero => cases hoe; exact ⟨fun v hv => by cases hv; rfl, fun v hv => by cases hv; rfl⟩
          | succ n => cases hoe)
      (by intro os ms i oe me hos hms hoe hme hk
          cases hos
          cases hms
          cases i with
          | zero => cases hoe; rfl
          | succ n => cases hoe)
      (by intro os i oe hos hoe
          cases hos
          cases i with
          | zero => cases hoe; intro v hv; cases hv; rfl
          | succ n => cases hoe))
  ⟨h.1 _ rfl,
   (h.2.1 [.obj [("company", .str "Acme"), ("location", .str "NYC"),
                 ("title", .str "Eng")]]
      [.obj [("company", .str "Acme"), ("location", .str "NYC"),
             ("title", .str "Senior Eng")]]
      0
      [("company", .str "Acme"), ("location", .str "NYC"),
       ("title", .str "Senior Eng")]
      rfl rfl (by decide) rfl).1 (.str "Acme") rfl⟩

/-! ## Sanitizer lemmas -/

theorem sanitize_ok_elim {r s : Obj} (h : sanitize_resume r = .ok s) :
    ∃ s₁, sanitizeExperienceStep (sanitizePersonalInfoStep r) = .ok s₁
      ∧ sanitizeEducationStep s₁ = .ok s := by
  unfold sanitize_resume at h
  obtain ⟨s₁, h₁, h₀⟩ := except_bind_ok h
  obtain ⟨s₂, h₂, h₃⟩ := except_bind_ok h₀
  have hs : s₂ = s := by simpa using h₃
  subst hs
  exact ⟨s₁, h₁, h₂⟩

theorem sanitizeExperienceStep_getKey_ne {d s₁ : Obj}
    (h : sanitizeExperienceStep d = .ok s₁) {k : String} (hk : k ≠ "experience") :
    getKey s₁ k = getKey d k := by
  unfold sanitizeExperienceStep at h
  split at h
  · rename_i xs heq
    cases hmx : mapIdxM sanitizeExperienceEntry 0 xs with
    | error e₀ => rw [hmx] at h; simp [Except.map] at h
    | ok xs₁ =>
        rw [hmx] at h
        simp only [Except.map, Except.ok.injEq] at h
        rw [← h]
        exact getKey_setKey_ne d _ hk
  · simp at h
  · simp only [Except.ok.injEq] at h
    rw [← h]

theorem sanitizeEducationStep_getKey_ne {d s₁ : Obj}
    (h : sanitizeEducationStep d = .ok s₁) {k : String} (hk : k ≠ "education") :
    getKey s₁ k = getKey d k := by
  unfold sanitizeEducationStep at h
  split at h
  · rename_i xs heq
    cases hmx : mapIdxM sanitizeEducationEntry 0 xs with
    | error e₀ => rw [hmx] at h; simp [Except.map] at h
    | ok xs₁ =>
        rw [hmx] at h
        simp only [Except.map, Except.ok.injEq] at h
        rw [← h]
        exact getKey_setKey_ne d _ hk
  · simp at h
  · simp only [Except.ok.injEq] at h
    rw [← h]

theorem sanitizeExperienceStep_shape {d s₁ : Obj}
    (h : sanitizeExperienceStep d = .ok s₁) :
    s₁ = d ∨ ∃ xs₁, s₁ = setKey d "experience" (.arr xs₁) := by
  unfold sanitizeExperienceStep at h
  split at h
  · rename_i xs heq
    cases hmx : mapIdxM sanitizeExperienceEntry 0 xs with
    | error e₀ => rw [hmx] at h; simp [Except.map] at h
    | ok xs₁ =>
        rw [hmx] at h
        simp only [Except.map, Except.ok.injEq] at h
        exact Or.inr ⟨xs₁, h.symm⟩
  · simp at h
  · simp only [Except.ok.injEq] at h
    exact Or.inl h.symm

theorem sanitizeEducationStep_shape {d s₁ : Obj}
    (h : sanitizeEducationStep d = .ok s₁) :
    s₁ = d ∨ ∃ xs₁, s₁ = setKey d "education" (.arr xs₁) := by
  unfold sanitizeEducationStep at h
  split at h
  · rename_i xs heq
    cases hmx : mapIdxM sanitizeEducationEntry 0 xs with
    | error e₀ => rw [hmx] at h; simp [Except.map] at h
    | ok xs₁ =>
        rw [hmx] at h
        simp only [Except.map, Except.ok.injEq] at h
        exact Or.inr ⟨xs₁, h.symm⟩
  · simp at h
  · simp only [Except.ok.injEq] at h
    exact Or.inl h.symm

theorem sanitizeExperienceStep_ok_elim {d s₁ : Obj}
    (h : sanitizeExperienceStep d = .ok s₁) :
    (getKey d "experience" = none ∧ s₁ = d)
    ∨ ∃ xs xs₁, getKey d "experience" = some (.arr xs)
        ∧ mapIdxM sanitizeExperienceEntry 0 xs = .ok xs₁
        ∧ s₁ = setKey d "experience" (.arr xs₁) := by
  unfold sanitizeExperienceStep at h
  cases hd : getKey d "experience" with
  | none =>
      rw [hd] at h
      simp only [Except.ok.injEq] at h
      exact Or.inl ⟨rfl, h.symm⟩
  | some j =>
      rw [hd] at h
      cases j with
      | arr xs =>
          replace h : Except.map (fun xs₁ => setKey d "experience" (Json.arr xs₁))
              (mapIdxM sanitizeExperienceEntry 0 xs) = Except.ok s₁ := h
          cases hmx : mapIdxM sanitizeExperienceEntry 0 xs with
          | error e₀ => rw [hmx] at h; simp [Except.map] at h
          | ok xs₁ =>
              rw [hmx] at h
              simp only [Except.map, Except.ok.injEq] at h
              exact Or.inr ⟨xs, xs₁, rfl, hmx, h.symm⟩
      | null => simp at h
      | bool b => simp at h
      | num n => simp at h
      | str s₀ => simp at h
      | obj kv => simp at h

theorem sanitizeEducationStep_ok_elim {d s₁ : Obj}
    (h : sanitizeEducationStep d = .ok s₁) :
    (getKey d "education" = none ∧ s₁ = d)
    ∨ ∃ xs xs₁, getKey d "education" = some (.arr xs)
        ∧ mapIdxM sanitizeEducationEntry 0 xs = .ok xs₁
        ∧ s₁ = setKey d "education" (.arr xs₁) := by
  unfold sanitizeEducationStep at h
  cases hd : getKey d "education" with
  | none =>
      rw [hd] at h
      simp only [Except.ok.injEq] at h
      exact Or.inl ⟨rfl, h.symm⟩
  | some j =>
      rw [hd] at h
      cases j with
      | arr xs =>
          replace h : Except.map (fun xs₁ => setKey d "education" (Json.arr xs₁))
              (mapIdxM sanitizeEducationEntry 0 xs) = Except.ok s₁ := h
          cases hmx : mapIdxM sanitizeEducationEntry 0 xs with
          | error e₀ => rw [hmx] at h; simp [Except.map] at h
          | ok xs₁ =>
              rw [hmx] at h
              simp only [Except.map, Except.ok.injEq] at h
              exact Or.inr ⟨xs, xs₁, rfl, hmx, h.symm⟩
      | null => simp at h
      | bool b => simp at h
      | num n => simp at h
      | str s₀ => simp at h
      | obj kv => simp at h

/-- C10: on any record carrying a `personal_info` key, the sanitizer
replaces the entire `personal_info` value by the fixed canonical block:
name `'[REDACTED]'` and a contact object holding exactly the four keys
email, phone, location, linkedin, each `'[REDACTED]'` — any other subfield
of the input's personal_info or contact is dropped, and all four contact
keys appear even when absent from the input. -/
theorem sanitize_personal_info_canonical (r s : Obj)
    (h : sanitize_resume r = .ok s) (hpi : hasKey r "personal_info" = true) :
    getKey s "personal_info"
      = some (.obj [("name", .str "[REDACTED]"),
                    ("contact", .obj [("email", .str "[REDACTED]"),
                                      ("phone", .str "[REDACTED]"),
                                      ("location", .str "[REDACTED]"),
                                      ("linkedin", .str "[REDACTED]")])]) := by
  obtain ⟨s₁, h₁, h₂⟩ := sanitize_ok_elim h
  rw [sanitizeEducationStep_getKey_ne h₂ (by decide),
      sanitizeExperienceStep_getKey_ne h₁ (by decide)]
  show getKey (sanitizePersonalInfoStep r) "personal_info" = some sanitizedPersonalInfo
  unfold sanitizePersonalInfoStep
  rw [if_pos hpi]
  exact getKey_setKey_self _ _ _

/-- Witness for C10: the sanitized sample resume carries exactly the
canonical redacted personal_info block (the input's extra contact subfield
is gone). -/
theorem sanitize_personal_info_canonical_witness :
    getKey sampleSanitized "personal_info"
      = some (.obj [("name", .str "[REDACTED]"),
                    ("contact", .obj [("email", .str "[REDACTED]"),
                                      ("phone", .str "[REDACTED]"),
                                      ("location", .str "[REDACTED]"),
                                      ("linkedin", .str "[REDACTED]")])]) :=
  sanitize_personal_info_canonical sampleResume sampleSanitized rfl rfl

theorem sanitizeExperienceObj_idem (i : Nat) (E : Obj)
    (hasK : hasKey E "company" = true)
    (hAll : allVal E "company" (.str (companyPseudonym i)))
    (hLoc : hasKey E "location" = true → allVal E "location" (.str locationPlaceholder)) :
    sanitizeExperienceEntry i (.obj E) = .ok (.obj E) := by
  simp only [sanitizeExperienceEntry]
  rw [setKey_eq_self hasK hAll]
  by_cases h2 : hasKey E "location"
  · rw [if_pos h2, setKey_eq_self h2 (hLoc h2)]
  · rw [if_neg h2]

theorem sanitizeExperienceEntry_idem {i : Nat} {x y : Json}
    (h : sanitizeExperienceEntry i x = .ok y) :
    sanitizeExperienceEntry i y = .ok y := by
  unfold sanitizeExperienceEntry at h
  split at h
  · rename_i e
    simp only [Except.ok.injEq] at h
    by_cases hloc : hasKey (setKey e "company" (.str (companyPseudonym i))) "location"
    · rw [if_pos hloc] at h
      subst h
      apply sanitizeExperienceObj_idem
      · rw [hasKey_setKey_ne _ _ (by decide)]
        exact hasKey_setKey_self _ _ _
      · exact allVal_setKey_ne _ _ (by decide) (allVal_setKey_self _ _ _)
      · intro _
        exact allVal_setKey_self _ _ _
    · rw [if_neg hloc] at h
      subst h
      apply sanitizeExperienceObj_idem
      · exact hasKey_setKey_self _ _ _
      · exact allVal_setKey_self _ _ _
      · intro hcontra
        exact absurd hcontra hloc
  · simp at h

theorem sanitizeEducationEntry_idem {i : Nat} {x y : Json}
    (h : sanitizeEducationEntry i x = .ok y) :
    sanitizeEducationEntry i y = .ok y := by
  unfold sanitizeEducationEntry at h
  split at h
  · rename_i e
    simp only [Except.ok.injEq] at h
    subst h
    simp only [sanitizeEducationEntry, Except.ok.injEq, Json.obj.injEq]
    exact setKey_eq_self (hasKey_setKey_self _ _ _) (allVal_setKey_self _ _ _)
  · simp at h

theorem mapIdxM_idem {f : Nat → Json → Except String Json}
    (hf : ∀ i x y, f i x = .ok y → f i y = .ok y) :
    ∀ (xs : List Json) (n : Nat) {ys : List Json},
      mapIdxM f n xs = .ok ys → mapIdxM f n ys = .ok ys := by
  intro xs
  induction xs with
  | nil =>
      intro n ys h
      simp only [mapIdxM, Except.ok.injEq] at h
      rw [← h]
      rfl
  | cons x xs ih =>
      intro n ys h
      unfold mapIdxM at h
      obtain ⟨y, hy, h₀⟩ := except_bind_ok h
      obtain ⟨ys₀, hys₀, h₁⟩ := except_bind_ok h₀
      simp only [Except.ok.injEq] at h₁
      rw [← h₁]
      have hy₁ := hf n x y hy
      have hys₁ := ih (n + 1) hys₀
      simp [mapIdxM, hy₁, hys₁, Bind.bind, Except.bind]

set_option maxHeartbeats 1000000 in
/-- C6: the sanitizer is a projection: re-sanitizing an already-sanitized
record returns it unchanged — in particular all identity-bearing fields
(the personal_info block, the per-index company/location pseudonyms and the
per-index institution pseudonyms) are unchanged by a second sanitize. -/
theorem sanitize_idempotent (r s : Obj) (h : sanitize_resume r = .ok s) :
    sanitize_resume s = .ok s := by
  obtain ⟨s₁, h₁, h₂⟩ := sanitize_ok_elim h
  have stepA : sanitizePersonalInfoStep s = s := by
    by_cases hpi : hasKey r "personal_info"
    · have hd₀ : sanitizePersonalInfoStep r
          = setKey r "personal_info" sanitizedPersonalInfo := by
        unfold sanitizePersonalInfoStep
        rw [if_pos hpi]
      have hk₁ : hasKey s₁ "personal_info" = true := by
        unfold hasKey
        rw [sanitizeExperienceStep_getKey_ne h₁ (by decide), hd₀]
        have := hasKey_setKey_self r "personal_info" sanitizedPersonalInfo
        simpa [hasKey] using this
      have hk : hasKey s "personal_info" = true := by
        unfold hasKey
        rw [sanitizeEducationStep_getKey_ne h₂ (by decide)]
        simpa [hasKey] using hk₁
      have hv₁ : allVal s₁ "personal_info" sanitizedPersonalInfo := by
        rcases sanitizeExperienceStep_shape h₁ with hsh | ⟨xs₁, hsh⟩ <;>
          rw [hsh, hd₀]
        · exact allVal_setKey_self _ _ _
        · exact allVal_setKey_ne _ _ (by decide) (allVal_setKey_self _ _ _)
      have hv : allVal s "personal_info" sanitizedPersonalInfo := by
        rcases sanitizeEducationStep_shape h₂ with hsh | ⟨xs₁, hsh⟩ <;> rw [hsh]
        · exact hv₁
        · exact allVal_setKey_ne _ _ (by decide) hv₁
      unfold sanitizePersonalInfoStep
      rw [if_pos hk]
      exact setKey_eq_self hk hv
    · have hd₀ : sanitizePersonalInfoStep r = r := by
        unfold sanitizePersonalInfoStep
        rw [if_neg hpi]
      have hk : hasKey s "personal_info" = false := by
        unfold hasKey
        rw [sanitizeEducationStep_getKey_ne h₂ (by decide),
            sanitizeExperienceStep_getKey_ne h₁ (by decide), hd₀]
        simpa [hasKey] using (Bool.eq_false_iff.mpr hpi)
      unfold sanitizePersonalInfoStep
      rw [if_neg (by simp [hk])]
  have stepB : sanitizeExperienceStep s = .ok s := by
    rcases sanitizeExperienceStep_ok_elim h₁ with ⟨hnone, hsh⟩ | ⟨xs, xs₁, hget, hmx, hsh⟩
    · have hs : getKey s "experience" = none := by
        rw [sanitizeEducationStep_getKey_ne h₂ (by decide), hsh]
        exact hnone
      unfold sanitizeExperienceStep
      rw [hs]
    · have hg₁ : getKey s₁ "experience" = some (.arr xs₁) := by
        rw [hsh]
        exact getKey_setKey_self _ _ _
      have hg : getKey s "experience" = some (.arr xs₁) := by
        rw [sanitizeEducationStep_getKey_ne h₂ (by decide)]
        exact hg₁
      have hv₁ : allVal s₁ "experience" (.arr xs₁) := by
        rw [hsh]
        exact allVal_setKey_self _ _ _
      have hv : allVal s "experience" (.arr xs₁) := by
        rcases sanitizeEducationStep_shape h₂ with hsh₂ | ⟨ys₁, hsh₂⟩ <;> rw [hsh₂]
        · exact hv₁
        · exact allVal_setKey_ne _ _ (by decide) hv₁
      have hidem : mapIdxM sanitizeExperienceEntry 0 xs₁ = .ok xs₁ :=
        mapIdxM_idem (fun i x y hxy => @sanitizeExperienceEntry_idem i x y hxy) xs 0 hmx
      have hks : hasKey s "experience" = true := by simp [hasKey, hg]
      unfold sanitizeExperienceStep
      rw [hg]
      show Except.map (fun xs₂ => setKey s "experience" (Json.arr xs₂))
          (mapIdxM sanitizeExperienceEntry 0 xs₁) = Except.ok s
      rw [hidem]
      show Except.ok (setKey s "experience" (Json.arr xs₁)) = Except.ok s
      rw [setKey_eq_self hks hv]
  have stepC : sanitizeEducationStep s = .ok s := by
    rcases sanitizeEducationStep_ok_elim h₂ with ⟨hnone, hsh⟩ | ⟨xs, xs₁, hget, hmx, hsh⟩
    · have hs : getKey s "education" = none := by
        rw [hsh]
        exact hnone
      unfold sanitizeEducationStep
      rw [hs]
    · have hg : getKey s "education" = some (.arr xs₁) := by
        rw [hsh]
        exact getKey_setKey_self _ _ _
      have hv : allVal s "education" (.arr xs₁) := by
        rw [hsh]
        exact allVal_setKey_self _ _ _
      have hidem : mapIdxM sanitizeEducationEntry 0 xs₁ = .ok xs₁ :=
        mapIdxM_idem (fun i x y hxy => @sanitizeEducationEntry_idem i x y hxy) xs 0 hmx
      have hks : hasKey s "education" = true := by simp [hasKey, hg]
      unfold sanitizeEducationStep
      rw [hg]
      show Except.map (fun xs₂ => setKey s "education" (Json.arr xs₂))
          (mapIdxM sanitizeEducationEntry 0 xs₁) = Except.ok s
      rw [hidem]
      show Except.ok (setKey s "education" (Json.arr xs₁)) = Except.ok s
      rw [setKey_eq_self hks hv]
  simp [sanitize_resume, stepA, stepB, stepC, Bind.bind, Except.bind]

/-- Witness for C6: re-sanitizing the sanitized sample resume returns it
unchanged. -/
theorem sanitize_idempotent_witness :
    sanitize_resume sampleSanitized = .ok sampleSanitized :=
  sanitize_idempotent sampleResume sampleSanitized rfl

/-! ## Totality lemmas for the error-handling claim -/

theorem isObjEntry_elim {x : Json} (h : isObjEntry x = true) : ∃ e, x = .obj e := by
  cases x with
  | obj kv => exact ⟨kv, rfl⟩
  | null => simp [isObjEntry] at h
  | bool b => simp [isObjEntry] at h
  | num n => simp [isObjEntry] at h
  | str s₀ => simp [isObjEntry] at h
  | arr xs => simp [isObjEntry] at h

theorem entriesAreObjects_elim {j : Json} (h : entriesAreObjects j = true) :
    ∃ xs, j = .arr xs ∧ ∀ x ∈ xs, isObjEntry x = true := by
  cases j with
  | arr xs =>
      refine ⟨xs, rfl, ?_⟩
      simpa [entriesAreObjects, List.all_eq_true] using h
  | null => simp [entriesAreObjects] at h
  | bool b => simp [entriesAreObjects] at h
  | num n => simp [entriesAreObjects] at h
  | str s₀ => simp [entriesAreObjects] at h
  | obj kv => simp [entriesAreObjects] at h

theorem keyEntriesAreObjects_some {d : Obj} {k : String} {j : Json}
    (h : keyEntriesAreObjects d k = true) (hj : getKey d k = some j) :
    entriesAreObjects j = true := by
  unfold keyEntriesAreObjects at h
  rw [hj] at h
  simpa using h

theorem entriesHaveKey_some {d : Obj} {k sub : String} {xs : List Json}
    (h : entriesHaveKey d k sub = true) (hj : getKey d k = some (.arr xs)) :
    ∀ x ∈ xs, entryHas sub x = true := by
  unfold entriesHaveKey at h
  rw [hj] at h
  simpa [List.all_eq_true] using h

theorem sanitizePersonalInfoStep_getKey_ne (d : Obj) {k : String}
    (hk : k ≠ "personal_info") :
    getKey (sanitizePersonalInfoStep d) k = getKey d k := by
  unfold sanitizePersonalInfoStep
  split
  · exact getKey_setKey_ne d _ hk
  · rfl

theorem mapIdxM_total {f : Nat → Json → Except String Json}
    (hobj : ∀ i e, ∃ y, f i (.obj e) = .ok y) :
    ∀ (xs : List Json) (n : Nat), (∀ x ∈ xs, isObjEntry x = true) →
      ∃ ys, mapIdxM f n xs = .ok ys := by
  intro xs
  induction xs with
  | nil => exact fun n _ => ⟨[], rfl⟩
  | cons x xs ih =>
      intro n hx
      obtain ⟨e, rfl⟩ := isObjEntry_elim (hx x (List.mem_cons_self _ _))
      obtain ⟨y, hy⟩ := hobj n e
      obtain ⟨ys, hys⟩ := ih (n + 1) (fun t ht => hx t (List.mem_cons_of_mem _ ht))
      exact ⟨y :: ys, by simp [mapIdxM, hy, hys, Bind.bind, Except.bind]⟩

theorem mergeZip_total {f : Json → Json → Except String Json} :
    ∀ (os ms : List Json),
      (∀ o ∈ os, ∀ m ∈ ms, ∃ y, f o m = .ok y) →
        ∃ ys, mergeZip f os ms = .ok ys := by
  intro os
  induction os with
  | nil =>
      intro ms _
      cases ms with
      | nil => exact ⟨[], rfl⟩
      | cons m ms => exact ⟨m :: ms, rfl⟩
  | cons o os ih =>
      intro ms hok
      cases ms with
      | nil => exact ⟨[], rfl⟩
      | cons m ms =>
          obtain ⟨y, hy⟩ := hok o (List.mem_cons_self _ _) m (List.mem_cons_self _ _)
          obtain ⟨ys, hys⟩ := ih ms
            (fun o₁ ho₁ m₁ hm₁ =>
              hok o₁ (List.mem_cons_of_mem _ ho₁) m₁ (List.mem_cons_of_mem _ hm₁))
          exact ⟨y :: ys, by simp [mergeZip, hy, hys, Bind.bind, Except.bind]⟩

theorem mergeExperienceEntry_total {oe me : Obj}
    (hc : hasKey oe "company" = true) :
    ∃ y, mergeExperienceEntry (.obj oe) (.obj me) = .ok y := by
  obtain ⟨c, hcv⟩ : ∃ c, getKey oe "company" = some c :=
    Option.isSome_iff_exists.mp (by simpa [hasKey] using hc)
  cases hl : getKey oe "location" with
  | some lv =>
      exact ⟨.obj (setKey (setKey me "company" c) "location" lv),
        by simp [mergeExperienceEntry, hcv, hl]⟩
  | none =>
      exact ⟨.obj (setKey me "company" c), by simp [mergeExperienceEntry, hcv, hl]⟩

theorem mergeEducationEntry_total {oe me : Obj}
    (hc : hasKey oe "institution" = true) :
    ∃ y, mergeEducationEntry (.obj oe) (.obj me) = .ok y := by
  obtain ⟨c, hcv⟩ : ∃ c, getKey oe "institution" = some c :=
    Option.isSome_iff_exists.mp (by simpa [hasKey] using hc)
  exact ⟨.obj (setKey me "institution" c), by simp [mergeEducationEntry, hcv]⟩

theorem restoreExperience_skip_left {r : Obj} (d : Obj)
    (hr : getKey r "experience" = none) : restoreExperience r d = .ok d := by
  unfold restoreExperience
  cases hd : getKey d "experience" with
  | none => rw [hr]
  | some j => rw [hr]

theorem restoreExperience_skip_right (r : Obj) {d : Obj}
    (hd : getKey d "experience" = none) : restoreExperience r d = .ok d := by
  unfold restoreExperience
  cases hr : getKey r "experience" with
  | none => rw [hd]
  | some j => rw [hd]; cases j <;> rfl

theorem restoreEducation_skip_left {r : Obj} (d : Obj)
    (hr : getKey r "education" = none) : restoreEducation r d = .ok d := by
  unfold restoreEducation
  cases hd : getKey d "education" with
  | none => rw [hr]
  | some j => rw [hr]

theorem restoreEducation_skip_right (r : Obj) {d : Obj}
    (hd : getKey d "education" = none) : restoreEducation r d = .ok d := by
  unfold restoreEducation
  cases hr : getKey r "education" with
  | none => rw [hd]
  | some j => rw [hd]; cases j <;> rfl

theorem restoreExperience_both {r d : Obj} {os ms ms₁ : List Json}
    (hr : getKey r "experience" = some (.arr os))
    (hd : getKey d "experience" = some (.arr ms))
    (hz : mergeZip mergeExperienceEntry os ms = .ok ms₁) :
    restoreExperience r d = .ok (setKey d "experience" (.arr ms₁)) := by
  unfold restoreExperience
  rw [hr, hd]
  show Except.map (fun ms₂ => setKey d "experience" (Json.arr ms₂))
      (mergeZip mergeExperienceEntry os ms) = _
  rw [hz]
  rfl

theorem restoreEducation_both {r d : Obj} {os ms ms₁ : List Json}
    (hr : getKey r "education" = some (.arr os))
    (hd : getKey d "education" = some (.arr ms))
    (hz : mergeZip mergeEducationEntry os ms = .ok ms₁) :
    restoreEducation r d = .ok (setKey d "education" (.arr ms₁)) := by
  unfold restoreEducation
  rw [hr, hd]
  show Except.map (fun ms₂ => setKey d "education" (Json.arr ms₂))
      (mergeZip mergeEducationEntry os ms) = _
  rw [hz]
  rfl

/-- C7 counterexample: the claim says a missing `company` subfield inside a
list entry is treated as absence and never raises, but `merge` reads
`orig_exp['company']` unguarded: on an original whose experience entry
lacks `company`, merge raises `KeyError` instead of returning a record. -/
theorem merge_missing_company_raises_cex :
    merge [("experience", .arr [.obj [("title", .str "Engineer")]])]
          [("experience", .arr [.obj [("title", .str "Engineer")]])]
      = .error "KeyError: company" := rfl

/-- C7 (amended): missing top-level `personal_info`, `experience` or
`education` keys, and a missing optional `location` subfield, are treated
as absence by both operations; `sanitize_resume` completes on every record
whose present experience/education values are lists of objects, whatever
keys they carry.  `merge` however reads `company` and `institution`
unguarded from the original record's entries, so it is only total when
every original experience entry carries `company` and every original
education entry carries `institution` (within the lists; the edited side
may lack them freely). -/
theorem missing_key_handling_amended :
    (∀ r : Obj, listShaped r = true → (sanitize_resume r).isOk = true)
    ∧ (∀ r e : Obj, listShaped r = true → listShaped e = true →
        originalKeysPresent r = true → (merge r e).isOk = true) := by
  constructor
  · intro r hr
    obtain ⟨hre, hrd⟩ : keyEntriesAreObjects r "experience" = true
        ∧ keyEntriesAreObjects r "education" = true := by
      simpa [listShaped] using hr
    have hpe : getKey (sanitizePersonalInfoStep r) "experience" = getKey r "experience" :=
      sanitizePersonalInfoStep_getKey_ne r (by decide)
    have hpd : getKey (sanitizePersonalInfoStep r) "education" = getKey r "education" :=
      sanitizePersonalInfoStep_getKey_ne r (by decide)
    have hB : ∃ s₁, sanitizeExperienceStep (sanitizePersonalInfoStep r) = .ok s₁ := by
      cases hx : getKey r "experience" with
      | none =>
          refine ⟨sanitizePersonalInfoStep r, ?_⟩
          unfold sanitizeExperienceStep
          rw [hpe, hx]
      | some j =>
          obtain ⟨xs, rfl, hobjs⟩ :=
            entriesAreObjects_elim (keyEntriesAreObjects_some hre hx)
          obtain ⟨ys, hys⟩ :=
            @mapIdxM_total sanitizeExperienceEntry (fun i e => ⟨_, rfl⟩) xs 0 hobjs
          refine ⟨setKey (sanitizePersonalInfoStep r) "experience" (.arr ys), ?_⟩
          unfold sanitizeExperienceStep
          rw [hpe, hx]
          show Except.map
              (fun xs₁ => setKey (sanitizePersonalInfoStep r) "experience" (Json.arr xs₁))
              (mapIdxM sanitizeExperienceEntry 0 xs) = _
          rw [hys]
          rfl
    obtain ⟨s₁, hB⟩ := hB
    have hs₁d : getKey s₁ "education" = getKey r "education" := by
      rw [sanitizeExperienceStep_getKey_ne hB (by decide), hpd]
    have hC : ∃ s₂, sanitizeEducationStep s₁ = .ok s₂ := by
      cases hx : getKey r "education" with
      | none =>
          refine ⟨s₁, ?_⟩
          unfold sanitizeEducationStep
          rw [hs₁d, hx]
      | some j =>
          obtain ⟨xs, rfl, hobjs⟩ :=
            entriesAreObjects_elim (keyEntriesAreObjects_some hrd hx)
          obtain ⟨ys, hys⟩ :=
            @mapIdxM_total sanitizeEducationEntry (fun i e => ⟨_, rfl⟩) xs 0 hobjs
          refine ⟨setKey s₁ "education" (.arr ys), ?_⟩
          unfold sanitizeEducationStep
          rw [hs₁d, hx]
          show Except.map (fun xs₁ => setKey s₁ "education" (Json.arr xs₁))
              (mapIdxM sanitizeEducationEntry 0 xs) = _
          rw [hys]
          rfl
    obtain ⟨s₂, hC⟩ := hC
    have hok : sanitize_resume r = .ok s₂ := by
      simp [sanitize_resume, hB, hC, Bind.bind, Except.bind]
    rw [hok]
    rfl
  · intro r e hr he hkeys
    obtain ⟨hre, hrd⟩ : keyEntriesAreObjects r "experience" = true
        ∧ keyEntriesAreObjects r "education" = true := by
      simpa [listShaped] using hr
    obtain ⟨hee, hed⟩ : keyEntriesAreObjects e "experience" = true
        ∧ keyEntriesAreObjects e "education" = true := by
      simpa [listShaped] using he
    obtain ⟨hkc, hki⟩ : entriesHaveKey r "experience" "company" = true
        ∧ entriesHaveKey r "education" "institution" = true := by
      simpa [originalKeysPresent] using hkeys
    have hd₁exp : getKey (restorePersonalInfo r e) "experience" = getKey e "experience" :=
      restorePersonalInfo_getKey_ne r e (by decide)
    have hd₁edu : getKey (restorePersonalInfo r e) "education" = getKey e "education" :=
      restorePersonalInfo_getKey_ne r e (by decide)
    have hB : ∃ d₂, restoreExperience r (restorePersonalInfo r e) = .ok d₂
        ∧ getKey d₂ "education" = getKey e "education" := by
      cases hx : getKey r "experience" with
      | none => exact ⟨_, restoreExperience_skip_left _ hx, hd₁edu⟩
      | some j =>
          cases hy : getKey e "experience" with
          | none =>
              refine ⟨_, restoreExperience_skip_right r ?_, hd₁edu⟩
              rw [hd₁exp, hy]
          | some j₂ =>
              obtain ⟨os, rfl, hosobj⟩ :=
                entriesAreObjects_elim (keyEntriesAreObjects_some hre hx)
              obtain ⟨ms, rfl, hmsobj⟩ :=
                entriesAreObjects_elim (keyEntriesAreObjects_some hee hy)
              have hcomp := entriesHaveKey_some hkc hx
              obtain ⟨ms₁, hz⟩ := mergeZip_total os ms (by
                intro o ho m hm
                obtain ⟨oe, rfl⟩ := isObjEntry_elim (hosobj o ho)
                obtain ⟨me, rfl⟩ := isObjEntry_elim (hmsobj m hm)
                have : entryHas "company" (.obj oe) = true := hcomp _ ho
                exact mergeExperienceEntry_total (by simpa [entryHas] using this))
              refine ⟨_, restoreExperience_both hx (by rw [hd₁exp, hy]) hz, ?_⟩
              rw [getKey_setKey_ne _ _ (by decide), hd₁edu]
    obtain ⟨d₂, hB, hd₂edu⟩ := hB
    have hC : ∃ d₃, restoreEducation r d₂ = .ok d₃ := by
      cases hx : getKey r "education" with
      | none => exact ⟨d₂, restoreEducation_skip_left d₂ hx⟩
      | some j =>
          cases hy : getKey e "education" with
          | none =>
              refine ⟨d₂, restoreEducation_skip_right r ?_⟩
              rw [hd₂edu, hy]
          | some j₂ =>
              obtain ⟨os, rfl, hosobj⟩ :=
                entriesAreObjects_elim (keyEntriesAreObjects_some hrd hx)
              obtain ⟨ms, rfl, hmsobj⟩ :=
                entriesAreObjects_elim (keyEntriesAreObjects_some hed hy)
              have hinst := entriesHaveKey_some hki hx
              obtain ⟨ms₁, hz⟩ := mergeZip_total os ms (by
                intro o ho m hm
                obtain ⟨oe, rfl⟩ := isObjEntry_elim (hosobj o ho)
                obtain ⟨me, rfl⟩ := isObjEntry_elim (hmsobj m hm)
                have : entryHas "institution" (.obj oe) = true := hinst _ ho
                exact mergeEducationEntry_total (by simpa [entryHas] using this))
              exact ⟨_, restoreEducation_both hx (by rw [hd₂edu, hy]) hz⟩
    obtain ⟨d₃, hC⟩ := hC
    have hok : merge r e = .ok (stripMetadata r d₃) := by
      simp [merge, hB, hC, Bind.bind, Except.bind]
    rw [hok]
    rfl

/-- Witness for the amended C7 claim: a record with no identity keys at all
sanitizes fine, and a merge whose sides lack keys everywhere the amended
claim allows (edited side missing experience, entries missing location)
completes. -/
theorem missing_key_handling_amended_witness :
    (sanitize_resume [("skills", .str "python")]).isOk = true
      ∧ (merge [("experience", .arr [.obj [("company", .str "Acme")]])]
               [("education", .arr [.obj [("degree", .str "BS")]])]).isOk = true :=
  ⟨missing_key_handling_amended.1 [("skills", .str "python")] rfl,
   missing_key_handling_amended.2
     [("experience", .arr [.obj [("company", .str "Acme")]])]
     [("education", .arr [.obj [("degree", .str "BS")]])] rfl rfl rfl⟩

/-! ## Claims about the suggestion ledger -/

/-- C3 counterexample: `select_suggestions` has no duplicate guard, so calling
it twice with the overlapping id sets `[1]` and `[1]` on a one-suggestion
ledger appends the same suggestion reference twice: the suggestion appears
twice in the selected list, refuting the claim that a suggestion appears at
most once regardless of how many select calls included its id. -/
theorem select_overlap_duplicates_cex :
    (get_selected_suggestions
        (select_suggestions (select_suggestions oneSuggestionLedger [1]) [1])).count
      { sampleSuggestion 1 with selected := true } = 2 := by
  decide

/-- C3 (amended): `select_suggestions` is not idempotent on overlapping id
sets.  Each select call whose id set contains a suggestion's id appends one
more reference to that suggestion to the selected list, so after
`select A` then `select B` the number of occurrences of suggestion `i`
grows by one per call containing its id. -/
theorem select_count_per_call (st : Ledger) (A B : List Int) (i : Nat)
    (s : Suggestion) (h : st.all_suggestions.get? i = some s) :
    ((select_suggestions (select_suggestions st A) B).selectedRefs).count i
      = st.selectedRefs.count i
          + (if s.id ∈ A then 1 else 0) + (if s.id ∈ B then 1 else 0) := by
  have h₁ : (select_suggestions st A).all_suggestions.get? i
      = some (if s.id ∈ A then { s with selected := true } else s) := by
    have h₀ : st.all_suggestions[i]? = some s := by
      rw [← List.get?_eq_getElem?]; exact h
    simp [select_suggestions, selectLoop_fst, List.getElem?_map, h₀]
  show ((st.selectedRefs ++ (selectLoop A st.all_suggestions 0).2)
          ++ (selectLoop B (select_suggestions st A).all_suggestions 0).2).count i = _
  rw [List.count_append, List.count_append,
      count_selectLoop_snd A st.all_suggestions i s h,
      count_selectLoop_snd B (select_suggestions st A).all_suggestions i _ h₁]
  have hid : (if s.id ∈ A then { s with selected := true } else s).id = s.id := by
    by_cases hA : s.id ∈ A <;> simp [hA]
  rw [hid]

/-- Witness for the amended C3 claim at a concrete ledger: two select calls
both containing id 1 leave two references to suggestion 0 in the selected
list. -/
theorem select_count_per_call_witness :
    ((select_suggestions (select_suggestions oneSuggestionLedger [1]) [1]).selectedRefs).count 0
      = 2 := by
  have h := select_count_per_call oneSuggestionLedger [1] [1] 0 (sampleSuggestion 1) rfl
  simpa [oneSuggestionLedger, sampleSuggestion] using h

/-- C4: a single `select_suggestions` call appends the references of the
matching suggestions in strictly increasing index order — the order in which
the suggestions were originally generated — containing exactly the
suggestions whose id is in the supplied set, and the result does not depend
on the order in which the ids were supplied (only on membership). -/
theorem select_order_stability (st : Ledger) (ids : List Int) :
    (select_suggestions st ids).selectedRefs
        = st.selectedRefs ++ (selectLoop ids st.all_suggestions 0).2
      ∧ List.Pairwise (· < ·) (selectLoop ids st.all_suggestions 0).2
      ∧ (∀ i, i ∈ (selectLoop ids st.all_suggestions 0).2 ↔
            ∃ s, st.all_suggestions.get? i = some s ∧ s.id ∈ ids)
      ∧ ∀ ids₂, (∀ x : Int, x ∈ ids ↔ x ∈ ids₂) →
          select_suggestions st ids = select_suggestions st ids₂ := by
  refine ⟨rfl, pairwise_selectLoop_snd ids _ 0, ?_, ?_⟩
  · intro i
    rw [mem_selectLoop_snd]
    simp
  · intro ids₂ h
    simp [select_suggestions, selectLoop_congr h]

/-- Witness for C4: selecting ids `[5,1,3]` from the batch ordered `[1..5]`
yields the selected suggestions in generation order `[1,3,5]`, and supplying
the ids as `[1,3,5]` gives the identical ledger. -/
theorem select_order_stability_witness :
    (select_suggestions fiveSuggestionLedger [5, 1, 3]).selectedRefs = [0, 2, 4]
      ∧ select_suggestions fiveSuggestionLedger [5, 1, 3]
          = select_suggestions fiveSuggestionLedger [1, 3, 5]
      ∧ (get_selected_suggestions (select_suggestions fiveSuggestionLedger [5, 1, 3])).map
          (fun s => s.id) = [1, 3, 5] := by
  refine ⟨by decide, ?_, by decide⟩
  exact (select_order_stability fiveSuggestionLedger [5, 1, 3]).2.2.2 [1, 3, 5]
    (by intro x; simp; tauto)

/-- C8: modifying a suggestion by id is a strict no-op on the whole ledger
when no suggestion carries that id (no error is raised, nothing changes);
when the id does match, exactly the matching suggestions get their value
replaced by the new value and `modified` set, and the selected reference
list is never changed. -/
theorem modify_unknown_id_noop (st : Ledger) (suggestion_id : Int) (new_value : String) :
    ((∀ s ∈ st.all_suggestions, s.id ≠ suggestion_id) →
        modify_suggestion st suggestion_id new_value = st)
      ∧ (modify_suggestion st suggestion_id new_value).selectedRefs = st.selectedRefs
      ∧ (modify_suggestion st suggestion_id new_value).all_suggestions
          = st.all_suggestions.map
              (fun s => if s.id = suggestion_id
                        then { s with value := new_value, modified := true } else s) := by
  refine ⟨?_, rfl, modifyLoop_eq_map _ _ _⟩
  intro h
  cases st with
  | mk all refs => simp [modify_suggestion, modifyLoop_eq_self h]

/-- Witness for C8: modifying the unknown id 99 on the one-suggestion ledger
returns the ledger unchanged. -/
theorem modify_unknown_id_noop_witness :
    modify_suggestion oneSuggestionLedger 99 "new" = oneSuggestionLedger :=
  (modify_unknown_id_noop oneSuggestionLedger 99 "new").1 (by decide)

/-- C9: the selected list is read through the shared suggestion store, so a
modification applied after selection is visible through
`get_selected_suggestions`: the selected view after `modify_suggestion`
equals the old selected view with every entry carrying the modified id
updated to the new value (reference semantics, not a snapshot taken at
selection time). -/
theorem modify_after_select_visible (st : Ledger) (suggestion_id : Int) (new_value : String) :
    get_selected_suggestions (modify_suggestion st suggestion_id new_value)
      = (get_selected_suggestions st).map
          (fun s => if s.id = suggestion_id
                    then { s with value := new_value, modified := true } else s) := by
  unfold get_selected_suggestions modify_suggestion
  rw [List.map_filterMap]
  simp only [modifyLoop_eq_map, List.get?_eq_getElem?, List.getElem?_map]

end ResumeOpt
